import Mathlib

/-!
Shallow embedding of the limb codec and the pkcs1v15 verification data flow
of the anon-aadhaar-halo2 repository, together with theorems settling the
spec claims about them.

The limb codec (`decompose_u64_digits_to_limbs`, `decompose_biguint`,
`decompose_bigint`) is translated from src/big_uint/utils.rs.  Machine
integers (u64) are embedded as Nat together with the invariant that they are
below 2 ^ 64; the single place where the Rust code can wrap (the mask
computation, a u128 shift cast to u64) is embedded with an explicit % 2 ^ 64.
The field type F of the Rust code (a prime field) is embedded as an
arbitrary commutative ring, with F::from being the natural-number cast.
-/

namespace AnonAadhaar

/-- One step of the Rust iterator `e.next().unwrap_or(0)`: the next u64
digit (0 once the stream is exhausted) together with the remaining stream. -/
def nextDigit : List Nat → Nat × List Nat
  | [] => (0, [])
  | d :: ds => (d, ds)

/-- The mutable loop state of `decompose_u64_digits_to_limbs`: the current
residual digit `u64_digit`, the number `rem` of significant bits still
unconsumed in it, and the not-yet-fetched digits of the input stream. -/
structure DecState where
  u64_digit : Nat
  rem : Nat
  digits : List Nat

/-- One iteration of the loop body of `decompose_u64_digits_to_limbs`
(src/big_uint/utils.rs lines 47-68): produces one limb and the next state.
The three branches are the `Greater` / `Equal` / `Less` arms of
`rem.cmp(&bit_len)`. -/
def decomposeStep (bit_len : Nat) (s : DecState) : Nat × DecState :=
  let mask := (2 ^ bit_len - 1) % 2 ^ 64
  if bit_len < s.rem then
    (s.u64_digit &&& mask, ⟨s.u64_digit >>> bit_len, s.rem - bit_len, s.digits⟩)
  else if s.rem = bit_len then
    let p := nextDigit s.digits
    (s.u64_digit &&& mask, ⟨p.1, 64, p.2⟩)
  else
    let p := nextDigit s.digits
    let limb := s.u64_digit ||| ((p.1 &&& (2 ^ (bit_len - s.rem) - 1)) <<< s.rem)
    (limb, ⟨p.1 >>> (bit_len - s.rem), s.rem + (64 - bit_len), p.2⟩)

/-- The `(0..number_of_limbs).map(...)` loop of
`decompose_u64_digits_to_limbs`, iterating `decomposeStep`. -/
def decomposeGo (bit_len : Nat) : Nat → DecState → List Nat
  | 0, _ => []
  | n + 1, s => (decomposeStep bit_len s).1 :: decomposeGo bit_len n (decomposeStep bit_len s).2

/-- `decompose_u64_digits_to_limbs` from src/big_uint/utils.rs lines 37-70:
splits a little-endian stream of u64 digits into `number_of_limbs` limbs of
`bit_len` bits each. -/
def decompose_u64_digits_to_limbs (e : List Nat) (number_of_limbs bit_len : Nat) : List Nat :=
  decomposeGo bit_len number_of_limbs ⟨(nextDigit e).1, 64, (nextDigit e).2⟩

/-- `BigUint::to_u64_digits`: the little-endian u64 digits of a natural
number (no trailing zero digits; the empty list for 0). -/
def to_u64_digits (v : Nat) : List Nat :=
  if h : v = 0 then [] else v % 2 ^ 64 :: to_u64_digits (v / 2 ^ 64)
termination_by v
decreasing_by exact Nat.div_lt_self (Nat.pos_of_ne_zero h) (by norm_num)

/-- Modelled from the spec: the external wide-limb decomposition utility
(`halo2_base::utils::decompose_biguint`, an external crate, hence not part
of the sources) to which `decompose_biguint` delegates for
`64 < limb_bits_len < 128`.  Per the spec it yields successive
`limb_bits_len`-bit chunks of the value, least significant first, satisfying
the positional weighted-sum invariant. -/
def halo2base_decompose_biguint : Nat → Nat → Nat → List Nat
  | _, 0, _ => []
  | e, n + 1, b => e % 2 ^ b :: halo2base_decompose_biguint (e / 2 ^ b) n b

/-- The integer-level limbs produced by `decompose_biguint`
(src/big_uint/utils.rs lines 27-34): the narrow (u64-digit) path for
`limb_bits_len <= 64`, the delegated wide path otherwise. -/
def decompose_biguint_limbs (e number_of_limbs limb_bits_len : Nat) : List Nat :=
  if limb_bits_len ≤ 64 then
    decompose_u64_digits_to_limbs (to_u64_digits e) number_of_limbs limb_bits_len
  else
    halo2base_decompose_biguint e number_of_limbs limb_bits_len

/-- `decompose_biguint` from src/big_uint/utils.rs lines 21-35.  The
`assert!(limb_bits_len < 128)` panic is embedded as `none`; on the normal
path each integer limb is sent into the field by `F::from`, embedded as the
natural-number cast into a commutative ring. -/
def decompose_biguint (F : Type) [CommRing F] (e number_of_limbs limb_bits_len : Nat) :
    Option (List F) :=
  if limb_bits_len < 128 then
    some ((decompose_biguint_limbs e number_of_limbs limb_bits_len).map (fun v : Nat => (v : F)))
  else
    none

/-- `decompose_bigint` from src/big_uint/utils.rs lines 6-19: a negative
input decomposes its magnitude and negates every limb in the field; a
non-negative input decomposes its magnitude unchanged. -/
def decompose_bigint (F : Type) [CommRing F] (e : Int) (number_of_limbs limb_bits_len : Nat) :
    Option (List F) :=
  if e < 0 then
    (decompose_biguint F e.natAbs number_of_limbs limb_bits_len).map
      (List.map (fun x => -x))
  else
    decompose_biguint F e.natAbs number_of_limbs limb_bits_len

/-- Positional weighted sum of a limb sequence with limb width `b`:
`Σ limb[i] * 2 ^ (i * b)`, least significant limb first. -/
def weightedSum (b : Nat) : List Nat → Nat
  | [] => 0
  | x :: xs => x + 2 ^ b * weightedSum b xs

/-- Positional weighted sum of a field-element limb sequence. -/
def weightedSumF (F : Type) [CommRing F] (b : Nat) : List F → F
  | [] => 0
  | x :: xs => x + 2 ^ b * weightedSumF F b xs

/-- The value of a little-endian stream of u64 digits. -/
def fromDigits : List Nat → Nat
  | [] => 0
  | d :: ds => d + 2 ^ 64 * fromDigits ds

/-- The integer value represented by a loop state: the residual digit plus
the still-unread digits shifted past the `rem` unconsumed bits. -/
def stateVal (s : DecState) : Nat :=
  s.u64_digit + 2 ^ s.rem * fromDigits s.digits

/-- The loop invariant of `decompose_u64_digits_to_limbs`: the residual
digit holds fewer than `2 ^ rem` significant bits, and every unread digit
fits in a u64. -/
def DecInv (s : DecState) : Prop :=
  s.u64_digit < 2 ^ s.rem ∧ ∀ d ∈ s.digits, d < 2 ^ 64

theorem nextDigit_fromDigits (ds : List Nat) :
    fromDigits ds = (nextDigit ds).1 + 2 ^ 64 * fromDigits (nextDigit ds).2 := by
  cases ds <;> simp [nextDigit, fromDigits]

theorem nextDigit_lt (ds : List Nat) (h : ∀ d ∈ ds, d < 2 ^ 64) :
    (nextDigit ds).1 < 2 ^ 64 := by
  cases ds with
  | nil => simp [nextDigit]
  | cons d ds => exact h d (by simp)

theorem nextDigit_mem (ds : List Nat) (h : ∀ d ∈ ds, d < 2 ^ 64) :
    ∀ d ∈ (nextDigit ds).2, d < 2 ^ 64 := by
  cases ds with
  | nil => simp [nextDigit]
  | cons d ds => exact fun x hx => h x (by simp [nextDigit] at hx ⊢; exact Or.inr hx)

theorem mask_eq (b : Nat) (hb : b ≤ 64) : (2 ^ b - 1) % 2 ^ 64 = 2 ^ b - 1 := by
  have h : 2 ^ b ≤ 2 ^ 64 := Nat.pow_le_pow_right (by norm_num) hb
  exact Nat.mod_eq_of_lt (by omega)

/-- One loop iteration viewed arithmetically: under the loop invariant the
produced limb is the low `b` bits of the represented value, the new state
represents the value shifted right by `b` bits, and the invariant is
preserved (in every branch, including the cross-digit-boundary splice). -/
theorem decomposeStep_spec (b : Nat) (hb : b ≤ 64) (s : DecState) (h : DecInv s) :
    (decomposeStep b s).1 = stateVal s % 2 ^ b ∧
    stateVal (decomposeStep b s).2 = stateVal s / 2 ^ b ∧
    DecInv (decomposeStep b s).2 := by
  obtain ⟨u, r, ds⟩ := s
  obtain ⟨hu, hd⟩ := h
  change u < 2 ^ r at hu
  change ∀ d ∈ ds, d < 2 ^ 64 at hd
  have hpos : 0 < 2 ^ b := Nat.two_pow_pos b
  by_cases h1 : b < r
  · -- Greater branch: mask in place, shift the residual right, shrink rem.
    have hsplit : 2 ^ r = 2 ^ b * 2 ^ (r - b) := by
      rw [← pow_add]
      congr 1
      omega
    simp only [decomposeStep, if_pos h1, Nat.and_pow_two_sub_one_eq_mod,
      Nat.shiftRight_eq_div_pow, stateVal, mask_eq b hb]
    refine ⟨?_, ?_, ?_, hd⟩
    · rw [hsplit, mul_assoc, Nat.add_mul_mod_self_left]
    · rw [hsplit, mul_assoc, Nat.add_mul_div_left _ _ hpos]
    · change u / 2 ^ b < 2 ^ (r - b)
      rw [Nat.div_lt_iff_lt_mul hpos, ← pow_add]
      have h2 : r - b + b = r := by omega
      rw [h2]
      exact hu
  · by_cases h2 : r = b
    · -- Equal branch: emit the full residual, fetch the next digit.
      have hu' : u < 2 ^ b := by rw [← h2]; exact hu
      simp only [decomposeStep, if_neg h1, if_pos h2, Nat.and_pow_two_sub_one_eq_mod,
        stateVal, mask_eq b hb]
      simp only [h2]
      refine ⟨?_, ?_, ?_, nextDigit_mem ds hd⟩
      · rw [Nat.add_mul_mod_self_left]
      · rw [Nat.add_mul_div_left _ _ hpos, Nat.div_eq_of_lt hu', Nat.zero_add]
        exact (nextDigit_fromDigits ds).symm
      · exact nextDigit_lt ds hd
    · -- Less branch: splice low residual bits with high bits of the next digit.
      have hr : r < b := by omega
      have hp1 : (nextDigit ds).1 < 2 ^ 64 := nextDigit_lt ds hd
      have hm : (nextDigit ds).1 % 2 ^ (b - r) < 2 ^ (b - r) :=
        Nat.mod_lt _ (Nat.two_pow_pos _)
      have hrb : 2 ^ r * 2 ^ (b - r) = 2 ^ b := by
        rw [← pow_add]
        congr 1
        omega
      have h64 : 2 ^ r * 2 ^ 64 = 2 ^ b * 2 ^ (r + (64 - b)) := by
        rw [← pow_add, ← pow_add]
        congr 1
        omega
      have hlimb_lt : 2 ^ r * ((nextDigit ds).1 % 2 ^ (b - r)) + u < 2 ^ b := by
        have h3 : 2 ^ r * ((nextDigit ds).1 % 2 ^ (b - r)) + u
            < 2 ^ r * ((nextDigit ds).1 % 2 ^ (b - r) + 1) := by
          rw [Nat.mul_add, Nat.mul_one]
          omega
        have h4 : 2 ^ r * ((nextDigit ds).1 % 2 ^ (b - r) + 1) ≤ 2 ^ r * 2 ^ (b - r) :=
          Nat.mul_le_mul_left _ (by omega)
        omega
      have hval : u + 2 ^ r * fromDigits ds =
          (2 ^ r * ((nextDigit ds).1 % 2 ^ (b - r)) + u) +
            2 ^ b * ((nextDigit ds).1 / 2 ^ (b - r) +
              2 ^ (r + (64 - b)) * fromDigits (nextDigit ds).2) := by
        rw [nextDigit_fromDigits ds]
        calc u + 2 ^ r * ((nextDigit ds).1 + 2 ^ 64 * fromDigits (nextDigit ds).2)
            = u + 2 ^ r * (((nextDigit ds).1 % 2 ^ (b - r)
                + 2 ^ (b - r) * ((nextDigit ds).1 / 2 ^ (b - r)))
                + 2 ^ 64 * fromDigits (nextDigit ds).2) := by
              rw [Nat.mod_add_div]
          _ = 2 ^ r * ((nextDigit ds).1 % 2 ^ (b - r)) + u
                + (2 ^ r * 2 ^ (b - r)) * ((nextDigit ds).1 / 2 ^ (b - r))
                + (2 ^ r * 2 ^ 64) * fromDigits (nextDigit ds).2 := by ring
          _ = 2 ^ r * ((nextDigit ds).1 % 2 ^ (b - r)) + u
                + 2 ^ b * ((nextDigit ds).1 / 2 ^ (b - r))
                + (2 ^ b * 2 ^ (r + (64 - b))) * fromDigits (nextDigit ds).2 := by
              rw [hrb, h64]
          _ = (2 ^ r * ((nextDigit ds).1 % 2 ^ (b - r)) + u) +
                2 ^ b * ((nextDigit ds).1 / 2 ^ (b - r) +
                  2 ^ (r + (64 - b)) * fromDigits (nextDigit ds).2) := by ring
      have hlor : u ||| ((nextDigit ds).1 % 2 ^ (b - r)) * 2 ^ r =
          2 ^ r * ((nextDigit ds).1 % 2 ^ (b - r)) + u := by
        rw [mul_comm ((nextDigit ds).1 % 2 ^ (b - r)) (2 ^ r), Nat.lor_comm]
        exact (Nat.mul_add_lt_is_or hu _).symm
      simp only [decomposeStep, if_neg h1, if_neg h2, Nat.and_pow_two_sub_one_eq_mod,
        Nat.shiftLeft_eq, Nat.shiftRight_eq_div_pow, stateVal]
      refine ⟨?_, ?_, ?_, nextDigit_mem ds hd⟩
      · rw [hlor, hval, Nat.add_mul_mod_self_left, Nat.mod_eq_of_lt hlimb_lt]
      · rw [hval, Nat.add_mul_div_left _ _ hpos, Nat.div_eq_of_lt hlimb_lt, Nat.zero_add]
      · change (nextDigit ds).1 / 2 ^ (b - r) < 2 ^ (r + (64 - b))
        rw [Nat.div_lt_iff_lt_mul (Nat.two_pow_pos _), ← pow_add]
        have h5 : r + (64 - b) + (b - r) = 64 := by omega
        rw [h5]
        exact hp1

/-- The loop produces exactly `number_of_limbs` limbs. -/
theorem decomposeGo_length (b n : Nat) (s : DecState) : (decomposeGo b n s).length = n := by
  induction n generalizing s with
  | zero => rfl
  | succ n ih => simp [decomposeGo, ih]

/-- The weighted sum of the limbs produced from an invariant-respecting
state is the represented value reduced modulo `2 ^ (n * b)`. -/
theorem decomposeGo_weightedSum (b : Nat) (hb : b ≤ 64) (n : Nat) :
    ∀ s : DecState, DecInv s →
      weightedSum b (decomposeGo b n s) = stateVal s % 2 ^ (n * b) := by
  induction n with
  | zero => intro s _; simp [decomposeGo, weightedSum, Nat.mod_one]
  | succ n ih =>
    intro s hs
    obtain ⟨h1, h2, h3⟩ := decomposeStep_spec b hb s hs
    have hmul : (n + 1) * b = b + n * b := by ring
    calc weightedSum b (decomposeGo b (n + 1) s)
        = (decomposeStep b s).1 + 2 ^ b * weightedSum b (decomposeGo b n (decomposeStep b s).2) := by
          simp [decomposeGo, weightedSum]
      _ = stateVal s % 2 ^ b + 2 ^ b * (stateVal s / 2 ^ b % 2 ^ (n * b)) := by
          rw [h1, ih _ h3, h2]
      _ = stateVal s % (2 ^ b * 2 ^ (n * b)) := (Nat.mod_mul).symm
      _ = stateVal s % 2 ^ ((n + 1) * b) := by rw [← pow_add, hmul]

/-- Every digit extracted by `to_u64_digits` fits in a u64. -/
theorem to_u64_digits_lt (v : Nat) : ∀ d ∈ to_u64_digits v, d < 2 ^ 64 := by
  induction v using Nat.strong_induction_on with
  | _ v ih =>
    rw [to_u64_digits]
    by_cases h : v = 0
    · simp [h]
    · rw [dif_neg h]
      intro d hd
      rcases List.mem_cons.mp hd with h1 | h1
      · rw [h1]
        exact Nat.mod_lt _ (by norm_num)
      · exact ih (v / 2 ^ 64) (Nat.div_lt_self (Nat.pos_of_ne_zero h) (by norm_num)) d h1

/-- `to_u64_digits` is a little-endian radix-`2 ^ 64` representation. -/
theorem fromDigits_to_u64_digits (v : Nat) : fromDigits (to_u64_digits v) = v := by
  induction v using Nat.strong_induction_on with
  | _ v ih =>
    rw [to_u64_digits]
    by_cases h : v = 0
    · simp [h, fromDigits]
    · rw [dif_neg h, fromDigits,
        ih (v / 2 ^ 64) (Nat.div_lt_self (Nat.pos_of_ne_zero h) (by norm_num))]
      exact Nat.mod_add_div v (2 ^ 64)

/-- The weighted sum of `decompose_u64_digits_to_limbs` over any bounded
digit stream is the stream value modulo `2 ^ (n * b)`. -/
theorem decompose_u64_digits_to_limbs_sum (e : List Nat) (n b : Nat) (hb : b ≤ 64)
    (he : ∀ d ∈ e, d < 2 ^ 64) :
    weightedSum b (decompose_u64_digits_to_limbs e n b) = fromDigits e % 2 ^ (n * b) := by
  have hinv : DecInv ⟨(nextDigit e).1, 64, (nextDigit e).2⟩ :=
    ⟨nextDigit_lt e he, nextDigit_mem e he⟩
  have hval : stateVal ⟨(nextDigit e).1, 64, (nextDigit e).2⟩ = fromDigits e :=
    (nextDigit_fromDigits e).symm
  rw [decompose_u64_digits_to_limbs, decomposeGo_weightedSum b hb n _ hinv, hval]

/-- The weighted sum of the spec-modelled wide decomposition is the value
modulo `2 ^ (n * b)`. -/
theorem halo2base_decompose_biguint_sum (n : Nat) :
    ∀ e b : Nat, weightedSum b (halo2base_decompose_biguint e n b) = e % 2 ^ (n * b) := by
  induction n with
  | zero => intro e b; simp [halo2base_decompose_biguint, weightedSum, Nat.mod_one]
  | succ n ih =>
    intro e b
    have hmul : (n + 1) * b = b + n * b := by ring
    calc weightedSum b (halo2base_decompose_biguint e (n + 1) b)
        = e % 2 ^ b + 2 ^ b * (e / 2 ^ b % 2 ^ (n * b)) := by
          rw [halo2base_decompose_biguint, weightedSum, ih]
      _ = e % (2 ^ b * 2 ^ (n * b)) := (Nat.mod_mul).symm
      _ = e % 2 ^ ((n + 1) * b) := by rw [← pow_add, hmul]

/-- The weighted sum of the integer limbs of `decompose_biguint` (either
path) is the input modulo `2 ^ (n * b)`. -/
theorem decompose_biguint_limbs_sum (e n b : Nat) :
    weightedSum b (decompose_biguint_limbs e n b) = e % 2 ^ (n * b) := by
  rw [decompose_biguint_limbs]
  by_cases h : b ≤ 64
  · rw [if_pos h, decompose_u64_digits_to_limbs_sum _ _ _ h (to_u64_digits_lt e),
      fromDigits_to_u64_digits]
  · rw [if_neg h, halo2base_decompose_biguint_sum]

/-- Casting a natural-number limb sequence into a commutative ring commutes
with the weighted sum. -/
theorem weightedSumF_map_cast (F : Type) [CommRing F] (b : Nat) (L : List Nat) :
    weightedSumF F b (L.map (fun v : Nat => (v : F))) = ((weightedSum b L : Nat) : F) := by
  induction L with
  | nil => simp [weightedSum, weightedSumF]
  | cons x xs ih =>
    show (x : F) + 2 ^ b * weightedSumF F b (List.map (fun v : Nat => (v : F)) xs) = _
    rw [ih, weightedSum]
    push_cast
    ring

/-- Claim C1: for every non-negative integer `v` and parameters `(n, b)`
with `b < 128` and `v < 2 ^ (n * b)`, the positional weighted sum
`Σ limb[i] * 2 ^ (i * b)` of the limbs returned by
`decompose_biguint (v, n, b)` equals `v` exactly, and (for `b ≤ 64`) so
does the weighted sum of `decompose_u64_digits_to_limbs` applied to the
64-bit digits of `v`. -/
theorem claim_C1_roundtrip (F : Type) [CommRing F] (v n b : Nat) (h1 : b < 128)
    (h2 : v < 2 ^ (n * b)) :
    (∃ L, decompose_biguint F v n b = some L ∧ weightedSumF F b L = (v : F)) ∧
    (b ≤ 64 → weightedSum b (decompose_u64_digits_to_limbs (to_u64_digits v) n b) = v) := by
  constructor
  · refine ⟨(decompose_biguint_limbs v n b).map (fun x : Nat => (x : F)), ?_, ?_⟩
    · rw [decompose_biguint, if_pos h1]
    · rw [weightedSumF_map_cast, decompose_biguint_limbs_sum, Nat.mod_eq_of_lt h2]
  · intro hb
    rw [decompose_u64_digits_to_limbs_sum _ _ _ hb (to_u64_digits_lt v),
      fromDigits_to_u64_digits, Nat.mod_eq_of_lt h2]

/-- Witness for C1 at `F = ℤ`, `v = 5`, `n = 2`, `b = 3`. -/
theorem claim_C1_witness :
    (∃ L, decompose_biguint Int 5 2 3 = some L ∧ weightedSumF Int 3 L = ((5 : Nat) : Int)) ∧
    (3 ≤ 64 → weightedSum 3 (decompose_u64_digits_to_limbs (to_u64_digits 5) 2 3) = 5) :=
  claim_C1_roundtrip Int 5 2 3 (by norm_num) (by norm_num)

/-- Claim C4: for every positive `v`, `decompose_bigint (-v, n, b)` is the
element-wise field negation of `decompose_biguint (v, n, b)`, and for every
non-negative input `decompose_bigint` agrees with `decompose_biguint` on
the magnitude. -/
theorem claim_C4_sign (F : Type) [CommRing F] (v : Int) (n b : Nat) (hb : b < 128) :
    (0 < v → decompose_bigint F (-v) n b =
      (decompose_biguint F v.natAbs n b).map (List.map (fun x => -x))) ∧
    (0 ≤ v → decompose_bigint F v n b = decompose_biguint F v.natAbs n b) := by
  constructor
  · intro hv
    rw [decompose_bigint, if_pos (by omega), Int.natAbs_neg]
  · intro hv
    rw [decompose_bigint, if_neg (by omega)]

/-- Witness for C4 at `F = ℤ`, `v = 5`, `n = 2`, `b = 3`. -/
theorem claim_C4_witness :
    decompose_bigint Int (-5) 2 3 =
      (decompose_biguint Int (5 : Int).natAbs 2 3).map (List.map (fun x => -x)) :=
  (claim_C4_sign Int 5 2 3 (by norm_num)).1 (by norm_num)

/-- An exhausted digit stream with a zero residual only ever produces zero
limbs. -/
theorem decomposeGo_zero (b n : Nat) :
    ∀ r, decomposeGo b n ⟨0, r, []⟩ = List.replicate n 0 := by
  induction n with
  | zero => intro r; rfl
  | succ n ih =>
    intro r
    by_cases h1 : b < r
    · simp only [decomposeGo, decomposeStep, if_pos h1, Nat.zero_and, Nat.zero_shiftRight,
        List.replicate_succ, ih]
    · by_cases h2 : r = b
      · simp only [decomposeGo, decomposeStep, if_neg h1, if_pos h2, nextDigit, Nat.zero_and,
          List.replicate_succ, ih]
      · simp only [decomposeGo, decomposeStep, if_neg h1, if_neg h2, nextDigit, Nat.zero_and,
          Nat.zero_shiftLeft, Nat.zero_or, Nat.zero_shiftRight, List.replicate_succ, ih]

/-- Claim C5: `decompose_u64_digits_to_limbs` returns exactly
`number_of_limbs` limbs for every input; `number_of_limbs = 0` yields the
empty sequence and a zero-valued input yields an all-zero sequence. -/
theorem claim_C5_shape (e : List Nat) (n b : Nat) (hb : b ≤ 64) :
    (decompose_u64_digits_to_limbs e n b).length = n ∧
    decompose_u64_digits_to_limbs e 0 b = [] ∧
    decompose_u64_digits_to_limbs (to_u64_digits 0) n b = List.replicate n 0 := by
  refine ⟨decomposeGo_length b n _, rfl, ?_⟩
  have h0 : to_u64_digits 0 = [] := by rw [to_u64_digits]; rfl
  rw [h0]
  show decomposeGo b n ⟨(nextDigit []).1, 64, (nextDigit []).2⟩ = List.replicate n 0
  exact decomposeGo_zero b n 64

/-- Witness for C5 at `e = [7]`, `n = 3`, `b = 5`. -/
theorem claim_C5_witness :
    (decompose_u64_digits_to_limbs [7] 3 5).length = 3 ∧
    decompose_u64_digits_to_limbs [7] 0 5 = [] ∧
    decompose_u64_digits_to_limbs (to_u64_digits 0) 3 5 = List.replicate 3 0 :=
  claim_C5_shape [7] 3 5 (by norm_num)

/-- Every limb emitted from an invariant-respecting state is below
`2 ^ b`. -/
theorem decomposeGo_mem_lt (b : Nat) (hb : b ≤ 64) (n : Nat) :
    ∀ s, DecInv s → ∀ l ∈ decomposeGo b n s, l < 2 ^ b := by
  induction n with
  | zero => intro s _ l hl; simp [decomposeGo] at hl
  | succ n ih =>
    intro s hs l hl
    obtain ⟨h1, _, h3⟩ := decomposeStep_spec b hb s hs
    simp only [decomposeGo] at hl
    rcases List.mem_cons.mp hl with h | h
    · rw [h, h1]
      exact Nat.mod_lt _ (Nat.two_pow_pos b)
    · exact ih _ h3 l h

/-- Claim C6: every limb produced by `decompose_u64_digits_to_limbs` with
`1 ≤ b ≤ 64` on a stream of u64 digits is strictly below `2 ^ b`, and the
loop invariant (the residual digit holds fewer than `2 ^ rem` significant
bits) is preserved by every iteration, including the cross-digit-boundary
splicing branch. -/
theorem claim_C6_limb_width (e : List Nat) (n b : Nat) (h1 : 1 ≤ b) (h2 : b ≤ 64)
    (he : ∀ d ∈ e, d < 2 ^ 64) :
    (∀ l ∈ decompose_u64_digits_to_limbs e n b, l < 2 ^ b) ∧
    (∀ s : DecState, DecInv s → DecInv (decomposeStep b s).2) := by
  constructor
  · exact decomposeGo_mem_lt b h2 n _ ⟨nextDigit_lt e he, nextDigit_mem e he⟩
  · intro s hs
    exact (decomposeStep_spec b h2 s hs).2.2

/-- Witness for C6 at `e = [255]`, `n = 2`, `b = 4`. -/
theorem claim_C6_witness :
    (∀ l ∈ decompose_u64_digits_to_limbs [255] 2 4, l < 2 ^ 4) ∧
    (∀ s : DecState, DecInv s → DecInv (decomposeStep 4 s).2) :=
  claim_C6_limb_width [255] 2 4 (by norm_num) (by norm_num) (by decide)

/-- Claim C7: `decompose_biguint` aborts (embedded as `none`, the
`assert!(limb_bits_len < 128)` panic) if and only if `limb_bits_len ≥ 128`;
for every smaller width it returns normally. -/
theorem claim_C7_panic_iff (F : Type) [CommRing F] (v n b : Nat) :
    decompose_biguint F v n b = none ↔ 128 ≤ b := by
  rw [decompose_biguint]
  split_ifs with h
  · simp only [reduceCtorEq, false_iff]
    omega
  · simp only [true_iff]
    omega

/-- The Rust expression `(1u64 << s) as u64` used for the byte weights of
the digest packing (src/lib.rs line 234): a u64 shift panics (here `none`)
when the shift amount reaches the u64 width. -/
def shl_u64 (x s : Nat) : Option Nat :=
  if s < 64 then some (x * 2 ^ s % 2 ^ 64) else none

/-- The `bases` vector of `verify_pkcs1v15_signature` (src/lib.rs lines
233-236): `F::from(1u64 << (8 * i))` for each `i` below `limb_bytes`. -/
def compute_bases (F : Type) [CommRing F] (limb_bytes : Nat) : Option (List F) :=
  (List.range limb_bytes).mapM (fun i => (shl_u64 1 (8 * i)).map (fun v : Nat => (v : F)))

/-- `gate().inner_product` as used here: the dot product of two equal-length
vectors of field elements. -/
def inner_product (F : Type) [CommRing F] (xs ys : List F) : F :=
  (List.zipWith (fun a b => a * b) xs ys).sum

/-- The digest-to-limb packing loop of `verify_pkcs1v15_signature`
(src/lib.rs lines 229-244): for each of `bytes_bits / limb_bits` windows,
the dot product of the next `limb_bytes` digest bytes with the byte
weights.  `none` embeds the two panics of the block: a shift overflow in
the weight computation and a division by a zero `limb_bits`. -/
def pack_digest_limbs (F : Type) [CommRing F] (limb_bits : Nat) (hashed_bytes : List Nat) :
    Option (List F) :=
  if limb_bits = 0 then none
  else
    (compute_bases F (limb_bits / 8)).map (fun bases =>
      (List.range (hashed_bytes.length * 8 / limb_bits)).map (fun i =>
        inner_product F
          (((hashed_bytes.drop (limb_bits / 8 * i)).take (limb_bits / 8)).map
            (fun x : Nat => (x : F)))
          bases))

/-- `RSASignatureVerifier::verify_pkcs1v15_signature` (src/lib.rs lines
216-250), with the two external collaborators (the SHA-256 hash oracle and
the RSA relation check of the constraint backend) passed as fallible
functions.  Bytes are modelled as their values, assigned field cells as
field elements; the `?` operator of Rust is the `Except.error` short
circuit, and a panic inside the packing block is the outer `none`. -/
def verify_pkcs1v15_signature (F : Type) [CommRing F] (E : Type) (limb_bits : Nat)
    (sha256_digest : List Nat → Except E (List Nat))
    (rsa_verify : List F → Except E Bool)
    (msg : List Nat) : Option (Except E (Bool × List Nat)) :=
  match sha256_digest msg with
  | Except.error e => some (Except.error e)
  | Except.ok output_bytes =>
    match pack_digest_limbs F limb_bits output_bytes.reverse with
    | none => none
    | some hashed_u64s =>
      match rsa_verify hashed_u64s with
      | Except.error e => some (Except.error e)
      | Except.ok is_sign_valid =>
        some (Except.ok (is_sign_valid, output_bytes.reverse.reverse))

/-- Modelled from the spec: the little-endian weighted byte sum of one
window, byte `j` weighted by `256 ^ j`. -/
def le_byte_sum (F : Type) [CommRing F] : List Nat → F
  | [] => 0
  | x :: xs => (x : F) + 256 * le_byte_sum F xs

/-- Modelled from the spec: partition the (already reversed) digest into
consecutive `limb_bytes`-sized windows and take the little-endian weighted
byte sum of each; exactly `floor(digest_length_bits / limb_bits)` windows
are taken and any remainder bytes are never packed. -/
def spec_digest_limbs (F : Type) [CommRing F] (limb_bits : Nat) (hashed_bytes : List Nat) :
    List F :=
  (List.range (hashed_bytes.length * 8 / limb_bits)).map (fun i =>
    le_byte_sum F ((hashed_bytes.drop (limb_bits / 8 * i)).take (limb_bits / 8)))

theorem mapM_option_eq_some_map {α β : Type} (f : α → Option β) (g : α → β) :
    ∀ l : List α, (∀ a ∈ l, f a = some (g a)) → l.mapM f = some (l.map g) := by
  intro l
  induction l with
  | nil => intro _; rfl
  | cons a l ih =>
    intro h
    rw [List.mapM_cons, h a (List.mem_cons_self a l),
      ih (fun x hx => h x (List.mem_cons_of_mem a hx))]
    rfl

theorem mapM_option_eq_none {α β : Type} (f : α → Option β) :
    ∀ (l : List α) (a : α), a ∈ l → f a = none → l.mapM f = none := by
  intro l
  induction l with
  | nil => intro a ha; exact absurd ha (List.not_mem_nil a)
  | cons b l ih =>
    intro a ha hfa
    rw [List.mapM_cons]
    rcases List.mem_cons.mp ha with h | h
    · rw [← h, hfa]
      rfl
    · rw [ih a h hfa]
      cases f b <;> rfl

theorem zipWith_mul_geom (F : Type) [CommRing F] :
    ∀ (w : List Nat) (n : Nat) (c : F), w.length ≤ n →
      (List.zipWith (fun a b => a * b) (w.map (fun x : Nat => (x : F)))
        ((List.range n).map (fun i => c * ((2 ^ (8 * i) : Nat) : F)))).sum =
      c * le_byte_sum F w := by
  intro w
  induction w with
  | nil => intro n c _; simp [le_byte_sum]
  | cons x w ih =>
    intro n c hn
    cases n with
    | zero => simp at hn
    | succ m =>
      have hlen : w.length ≤ m := by
        simp only [List.length_cons] at hn
        omega
      rw [List.range_succ_eq_map, List.map_cons, List.map_cons, List.map_map,
        List.zipWith_cons_cons, List.sum_cons]
      have htail : (List.range m).map ((fun i => c * ((2 ^ (8 * i) : Nat) : F)) ∘ Nat.succ)
          = (List.range m).map (fun i => (256 * c) * ((2 ^ (8 * i) : Nat) : F)) := by
        apply List.map_congr_left
        intro a _
        show c * ((2 ^ (8 * (a + 1)) : Nat) : F) = (256 * c) * ((2 ^ (8 * a) : Nat) : F)
        have h2 : (2 : Nat) ^ (8 * (a + 1)) = 2 ^ 8 * 2 ^ (8 * a) := by
          rw [← pow_add]
          congr 1
          ring
        rw [h2]
        push_cast
        ring
      rw [htail, ih m (256 * c) hlen]
      have hz : ((2 ^ (8 * 0) : Nat) : F) = 1 := by norm_num
      rw [hz, le_byte_sum]
      ring

/-- The dot product of a byte window with the byte weight vector is the
little-endian weighted byte sum of the window. -/
theorem inner_product_bases (F : Type) [CommRing F] (w : List Nat) (n : Nat)
    (hn : w.length ≤ n) :
    inner_product F (w.map (fun x : Nat => (x : F)))
      ((List.range n).map (fun i => ((2 ^ (8 * i) : Nat) : F))) = le_byte_sum F w := by
  have h1 : (List.range n).map (fun i => ((2 ^ (8 * i) : Nat) : F))
      = (List.range n).map (fun i => (1 : F) * ((2 ^ (8 * i) : Nat) : F)) := by
    simp
  rw [inner_product, h1, zipWith_mul_geom F w n 1 hn, one_mul]

/-- When every shift stays below the u64 width the `bases` vector is the
vector of powers `2 ^ (8 * i)`. -/
theorem compute_bases_eq (F : Type) [CommRing F] (limb_bytes : Nat) (h : limb_bytes ≤ 8) :
    compute_bases F limb_bytes =
      some ((List.range limb_bytes).map (fun i => ((2 ^ (8 * i) : Nat) : F))) := by
  apply mapM_option_eq_some_map
  intro a ha
  rw [List.mem_range] at ha
  have h64 : 8 * a < 64 := by omega
  have hlt : 1 * 2 ^ (8 * a) < 2 ^ 64 := by
    rw [one_mul]
    exact Nat.pow_lt_pow_right (by norm_num) h64
  rw [shl_u64, if_pos h64, Option.map_some', Nat.mod_eq_of_lt hlt, one_mul]

/-- Claim C2: under a well-defined configuration (`0 < limb_bits`,
`limb_bytes = limb_bits / 8 ≤ 8`), the packing pass of
`verify_pkcs1v15_signature` packs exactly
`floor(digest_length_bits / limb_bits)` limbs from the reversed digest,
the `i`-th being the little-endian weighted byte sum (byte `j` of the
`i`-th consecutive `limb_bytes`-sized window weighted by `256 ^ j`);
remainder bytes beyond an exact multiple are never packed. -/
theorem claim_C2_packing (F : Type) [CommRing F] (limb_bits : Nat) (hashed : List Nat)
    (h0 : 0 < limb_bits) (h8 : limb_bits / 8 ≤ 8) :
    pack_digest_limbs F limb_bits hashed = some (spec_digest_limbs F limb_bits hashed) ∧
    (spec_digest_limbs F limb_bits hashed).length = hashed.length * 8 / limb_bits := by
  constructor
  · rw [pack_digest_limbs, if_neg (by omega), compute_bases_eq F _ h8, Option.map_some']
    rw [spec_digest_limbs]
    congr 1
    apply List.map_congr_left
    intro i _
    apply inner_product_bases
    rw [List.length_take]
    exact min_le_left _ _
  · rw [spec_digest_limbs, List.length_map, List.length_range]

/-- Witness for C2 at `F = ℤ`, `limb_bits = 16`, a 4-byte digest. -/
theorem claim_C2_witness :
    pack_digest_limbs Int 16 [1, 2, 3, 4] = some (spec_digest_limbs Int 16 [1, 2, 3, 4]) ∧
    (spec_digest_limbs Int 16 [1, 2, 3, 4]).length = [1, 2, 3, 4].length * 8 / 16 :=
  claim_C2_packing Int 16 [1, 2, 3, 4] (by norm_num) (by norm_num)

/-- Claim C3: the digest byte sequence is reversed once before packing and
reversed again before being returned, so whenever
`verify_pkcs1v15_signature` returns a result, the digest bytes handed back
are exactly the hash oracle's output in its original order. -/
theorem claim_C3_digest_order (F : Type) [CommRing F] (E : Type) (limb_bits : Nat)
    (dg : List Nat → Except E (List Nat)) (rv : List F → Except E Bool)
    (msg d : List Nat) (bit : Bool) (bytes : List Nat)
    (hd : dg msg = Except.ok d)
    (hv : verify_pkcs1v15_signature F E limb_bits dg rv msg =
      some (Except.ok (bit, bytes))) :
    bytes = d := by
  rw [verify_pkcs1v15_signature, hd] at hv
  dsimp only at hv
  cases hp : pack_digest_limbs F limb_bits d.reverse with
  | none => rw [hp] at hv; simp at hv
  | some limbs =>
    rw [hp] at hv
    dsimp only at hv
    cases hr : rv limbs with
    | error e => rw [hr] at hv; simp at hv
    | ok bb =>
      rw [hr] at hv
      simp only [Option.some.injEq, Except.ok.injEq, Prod.mk.injEq,
        List.reverse_reverse] at hv
      exact hv.2.symm

/-- Witness for C3 with concrete oracles at `F = ℤ`, `E = Unit`. -/
theorem claim_C3_witness : ([3, 7] : List Nat) = [3, 7] :=
  claim_C3_digest_order Int Unit 8 (fun _ => Except.ok [3, 7]) (fun _ => Except.ok true)
    [] [3, 7] true [3, 7] rfl (by rfl)

/-- Claim C8: `verify_pkcs1v15_signature` returns an error exactly when the
hash oracle or the constraint backend does, forwarding that error value
unchanged with no local recovery, and returning no partial result on
error. -/
theorem claim_C8_error_forwarding (F : Type) [CommRing F] (E : Type) (limb_bits : Nat)
    (dg : List Nat → Except E (List Nat)) (rv : List F → Except E Bool) (msg : List Nat) :
    (∀ e, dg msg = Except.error e →
      verify_pkcs1v15_signature F E limb_bits dg rv msg = some (Except.error e)) ∧
    (∀ d limbs e, dg msg = Except.ok d →
      pack_digest_limbs F limb_bits d.reverse = some limbs →
      rv limbs = Except.error e →
      verify_pkcs1v15_signature F E limb_bits dg rv msg = some (Except.error e)) ∧
    (∀ e, verify_pkcs1v15_signature F E limb_bits dg rv msg = some (Except.error e) →
      dg msg = Except.error e ∨
      ∃ d limbs, dg msg = Except.ok d ∧
        pack_digest_limbs F limb_bits d.reverse = some limbs ∧
        rv limbs = Except.error e) := by
  refine ⟨?_, ?_, ?_⟩
  · intro e he
    rw [verify_pkcs1v15_signature, he]
  · intro d limbs e hd hp hr
    rw [verify_pkcs1v15_signature, hd]
    dsimp only
    rw [hp]
    dsimp only
    rw [hr]
  · intro e hv
    rw [verify_pkcs1v15_signature] at hv
    cases hd : dg msg with
    | error e2 =>
      rw [hd] at hv
      dsimp only at hv
      simp only [Option.some.injEq, Except.error.injEq] at hv
      exact Or.inl (by rw [hv])
    | ok d =>
      rw [hd] at hv
      dsimp only at hv
      cases hp : pack_digest_limbs F limb_bits d.reverse with
      | none => rw [hp] at hv; simp at hv
      | some limbs =>
        rw [hp] at hv
        dsimp only at hv
        cases hr : rv limbs with
        | error e2 =>
          rw [hr] at hv
          dsimp only at hv
          simp only [Option.some.injEq, Except.error.injEq] at hv
          exact Or.inr ⟨d, limbs, rfl, hp, hr.trans (by rw [hv])⟩
        | ok bb => rw [hr] at hv; simp at hv

/-- Witness for C8: a failing hash oracle, error forwarded unchanged. -/
theorem claim_C8_witness :
    verify_pkcs1v15_signature Int Unit 8 (fun _ => Except.error ())
      (fun _ => Except.ok true) [] = some (Except.error ()) :=
  (claim_C8_error_forwarding Int Unit 8 (fun _ => Except.error ())
    (fun _ => Except.ok true) []).1 () rfl

/-- The exponent parameter of an RSA public key about to be assigned
(src/lib.rs lines 55-62): either a variable witness value or a fixed
constant.  Halo2's `Value<BigUint>` is embedded as `Option Nat`, with
`none` for `Value::unknown()`. -/
inductive RSAPubE where
  | Var : Option Nat → RSAPubE
  | Fix : Nat → RSAPubE
deriving DecidableEq

/-- `RSAPublicKey` (src/lib.rs lines 73-81): a modulus witness value and an
exponent parameter. -/
structure RSAPublicKey where
  n : Option Nat
  e : RSAPubE
deriving DecidableEq

/-- `RSAPublicKey::new` (src/lib.rs lines 92-98). -/
def RSAPublicKey.new (n : Option Nat) (e : RSAPubE) : RSAPublicKey :=
  ⟨n, e⟩

/-- `RSAPublicKey::without_witness` (src/lib.rs lines 100-108): an unknown
modulus with an immediately supplied fixed exponent. -/
def RSAPublicKey.without_witness (fix_e : Nat) : RSAPublicKey :=
  ⟨none, RSAPubE.Fix fix_e⟩

/-- `RSASignature` (src/lib.rs lines 134-140): the signature integer as a
witness value. -/
structure RSASignature where
  c : Option Nat
deriving DecidableEq

/-- `RSASignature::new` (src/lib.rs lines 150-152). -/
def RSASignature.new (c : Option Nat) : RSASignature :=
  ⟨c⟩

/-- `RSASignature::without_witness` (src/lib.rs lines 154-157): an unknown
signature integer. -/
def RSASignature.without_witness : RSASignature :=
  ⟨none⟩

/-- Claim C9: `RSAPublicKey::without_witness (fix_e)` has an unknown
modulus and the fixed exponent variant holding `fix_e` exactly, and
`RSASignature::without_witness ()` has an unknown signature integer. -/
theorem claim_C9_without_witness (fix_e : Nat) :
    (RSAPublicKey.without_witness fix_e).n = none ∧
    (RSAPublicKey.without_witness fix_e).e = RSAPubE.Fix fix_e ∧
    RSASignature.without_witness.c = none :=
  ⟨rfl, rfl, rfl⟩

/-- Counterexample to claim C10: with `limb_bits = 71 > 64` the packing is
still well-defined (with `limb_bytes = 71 / 8 = 8` every shift amount `8i`
stays below 64), refuting both that the packing is well-defined *only* when
`limb_bits ≤ 64` and that every configuration with `limb_bits > 64` makes
the shift exceed the u64 width. -/
theorem claim_C10_counterexample :
    ¬(71 ≤ 64) ∧ (pack_digest_limbs Int 71 (List.replicate 32 0)).isSome = true := by
  constructor
  · decide
  · decide

/-- Claim C10 (amended): the digest-to-limb packing computes its byte
weights as `1u64` shifted left by `8 * i` for each `i` below
`limb_bytes = limb_bits / 8`; the weight computation is well-defined if and
only if `limb_bytes ≤ 8`, i.e. `limb_bits < 72` — in particular
`limb_bits ≤ 64` suffices to keep every shift amount below 64, while
`limb_bits ≥ 72` makes a shift reach the u64 width. -/
theorem claim_C10_shift_bound (F : Type) [CommRing F] (limb_bits : Nat) :
    ((compute_bases F (limb_bits / 8)).isSome = true ↔ limb_bits < 72) ∧
    (limb_bits ≤ 64 → ∀ i ∈ List.range (limb_bits / 8), 8 * i < 64) := by
  constructor
  · constructor
    · intro h
      by_contra hc
      push_neg at hc
      have h8 : 8 ∈ List.range (limb_bits / 8) := by
        rw [List.mem_range]
        omega
      have hnone : compute_bases F (limb_bits / 8) = none := by
        apply mapM_option_eq_none _ _ 8 h8
        rfl
      rw [hnone] at h
      simp at h
    · intro h
      rw [compute_bases_eq F _ (by omega)]
      rfl
  · intro h i hi
    rw [List.mem_range] at hi
    omega

/-- Witness for C10 (amended) at `F = ℤ`, `limb_bits = 64`. -/
theorem claim_C10_witness :
    ((compute_bases Int (64 / 8)).isSome = true ↔ 64 < 72) ∧
    (64 ≤ 64 → ∀ i ∈ List.range (64 / 8), 8 * i < 64) :=
  claim_C10_shift_bound Int 64

end AnonAadhaar
